import Mathlib

/-!
Verification of the Spoology spool-catalog and remaining-filament estimator.

The definitions below are a shallow embedding of `App/src/App.tsx` (the Vite
React single-page application) and its data model from `App/src/types.ts`.
JavaScript numbers are idealised as rationals (`ℚ`), JavaScript `NaN` as
`none`, and the ASCII fragment of the JavaScript string primitives
(`trim`, `toLowerCase`, `split`, `includes`, `parseFloat`) is modelled over
`List Char`.  Stateful React pieces (the `useMemo` estimator and the
`useEffect` that resets the include-core flag) are modelled as pure
functions and as an explicit event-step relation.
-/

open List

namespace Spoology

/-- Both-ends whitespace removal on a character list: the character-level model
of `String.prototype.trim` (ASCII whitespace). -/
def trimChars (cs : List Char) : List Char :=
  ((cs.dropWhile Char.isWhitespace).reverse.dropWhile Char.isWhitespace).reverse

/-- Model of `String.prototype.trim`. -/
def jsTrim (s : String) : String := String.mk (trimChars s.data)

/-- Model of `String.prototype.toLowerCase` (ASCII case mapping). -/
def jsToLower (s : String) : String := String.mk (s.data.map Char.toLower)

/-- Model of `String.prototype.split("/")` on the character list: groups of
characters between occurrences of `'/'`; like in JavaScript, splitting the
empty list yields one empty group and adjacent separators yield empty groups. -/
def splitOnSlash : List Char → List (List Char)
  | [] => [[]]
  | c :: rest =>
    let r := splitOnSlash rest
    if c = '/' then [] :: r
    else
      match r with
      | [] => [[c]]
      | g :: gs => (c :: g) :: gs

/-- Decimal value of a list of digit characters, most significant first. -/
def digitsVal (ds : List Char) : Nat :=
  ds.foldl (fun n c => 10 * n + (c.toNat - '0'.toNat)) 0

/-- Exponent part of `parseFloat`: an optional sign followed by digits; when no
digit follows the `e`, the exponent is ignored (JavaScript behaviour). -/
def parseExpPart (rest : List Char) : Int :=
  let signAndRest : Bool × List Char :=
    match rest with
    | '-' :: r => (true, r)
    | '+' :: r => (false, r)
    | _ => (false, rest)
  let eds := signAndRest.2.takeWhile Char.isDigit
  if eds = [] then 0
  else if signAndRest.1 then -(digitsVal eds : Int) else (digitsVal eds : Int)

/-- Syntactic part of JavaScript `parseFloat`: skip leading whitespace, read an
optional sign, integer digits, an optional fraction and an optional exponent
from the front, ignoring any trailing characters.  Returns
(negative?, mantissa digits value, number of fraction digits, exponent), or
`none` when no digit can be read (JavaScript `NaN`).  The `Infinity` literal
and IEEE-double rounding are not modelled. -/
def parseFloatRepr (s : String) : Option (Bool × Nat × Nat × Int) :=
  let cs := s.data.dropWhile Char.isWhitespace
  let signAndRest : Bool × List Char :=
    match cs with
    | '-' :: rest => (true, rest)
    | '+' :: rest => (false, rest)
    | _ => (false, cs)
  let neg := signAndRest.1
  let cs1 := signAndRest.2
  let intDigits := cs1.takeWhile Char.isDigit
  let cs2 := cs1.drop intDigits.length
  let fracAndRest : List Char × List Char :=
    match cs2 with
    | '.' :: rest => (rest.takeWhile Char.isDigit, rest.drop (rest.takeWhile Char.isDigit).length)
    | _ => ([], cs2)
  let fracDigits := fracAndRest.1
  if intDigits = [] ∧ fracDigits = [] then none
  else
    let expVal : Int :=
      match fracAndRest.2 with
      | 'e' :: rest => parseExpPart rest
      | 'E' :: rest => parseExpPart rest
      | _ => 0
    some (neg, digitsVal intDigits * 10 ^ fracDigits.length + digitsVal fracDigits,
          fracDigits.length, expVal)

/-- Rational value of a parsed float representation. -/
def reprToRat : Bool × Nat × Nat × Int → ℚ
  | (neg, m, fracLen, e) =>
    let mag : ℚ :=
      (m : ℚ) / 10 ^ fracLen * (if 0 ≤ e then (10 : ℚ) ^ e.toNat else 1 / 10 ^ (-e).toNat)
    if neg then -mag else mag

/-- Model of JavaScript `parseFloat`; `none` plays the role of `NaN`. -/
def parseFloat (s : String) : Option ℚ := (parseFloatRepr s).map reprToRat

/-- A spool specification record (`Spool` in `App/src/types.ts`).  All numeric
JSON fields are idealised as rationals; `brand` is optional because
`expandBrands` guards against absent or empty brands. -/
structure Spool where
  brand : Option String
  type : String
  image : Option String
  description : Option String
  filamentDiameterMm : Option ℚ
  filamentWeightGrams : Option ℚ
  emptySpoolWeightGrams : Option ℚ
  coreInnerDiameterMm : Option ℚ
  refillable : Option Bool
deriving DecidableEq

/-- Model of `withBaseUrl`: absolute (`http://`, `https://`, `//`, the scheme
test being case-insensitive), `data:` and `blob:` URLs are left as-is, empty or
absent paths give `undefined`, and any other path has a leading slash stripped
and the base URL prepended. -/
def withBaseUrl (baseUrl : String) (path : Option String) : Option String :=
  match path with
  | none => none
  | some p =>
    if p.data = [] then none
    else if ['h','t','t','p',':','/','/'].isPrefixOf (p.data.map Char.toLower)
         || ['h','t','t','p','s',':','/','/'].isPrefixOf (p.data.map Char.toLower)
         || ['/','/'].isPrefixOf p.data
         || ['d','a','t','a',':'].isPrefixOf p.data
         || ['b','l','o','b',':'].isPrefixOf p.data then some p
    else
      some (String.mk (baseUrl.data ++ (match p.data with | '/' :: rest => rest | l => l)))

/-- The fixed enumerated list of spool source files (`SPOOL_FILES`). -/
def SPOOL_FILES : List String :=
  ["bambu-petg-hf-white-perforated.json",
   "bestworth-generic-plastic-55_1mm.json",
   "doweave-plastic-53_3mm-honeycomb.json",
   "esun-cardboard-54mm.json",
   "esun-plastic-53_2mm.json",
   "generic-carbonface-plastic-57_6mm.json",
   "generic-heavy-52_3mm.json",
   "generic-largecore-72mm.json",
   "generic-plastic-54_5mm.json",
   "generic-vented-55mm.json",
   "kaleidi-generic-plastic-59_5mm.json",
   "kingroon-cardboard-53_2mm.json",
   "kingroon-plastic-58_2mm.json",
   "r3d-generic-open-52mm.json",
   "r3d-generic-plastic-53mm-radial.json",
   "wellshow-standard-52_3mm.json"]

/-- Outcome of fetching one spool source file: the `fetch` call may throw, the
response may have a non-success status (`!res.ok`), `res.json()` may throw, or
a spool object is obtained. -/
inductive FetchOutcome where
  | fetchError
  | badStatus
  | parseError
  | success (spool : Spool)
deriving DecidableEq

/-- Model of `loadSpools`: iterate the fixed file list in order; any failing
source is skipped (`continue` on a bad status, `catch {}` on a thrown error);
each successfully parsed spool has its image path normalised and is appended.
The environment is a per-file outcome assignment. -/
def loadSpools (baseUrl : String) (outcomeOf : String → FetchOutcome) : List Spool :=
  SPOOL_FILES.foldl
    (fun results file =>
      match outcomeOf file with
      | .success spool => results ++ [{ spool with image := withBaseUrl baseUrl spool.image }]
      | _ => results)
    []

/-- Model of `expandBrands`: an absent or empty brand has no aliases; otherwise
the brand string is split on `"/"`, each part is trimmed, and empty parts are
discarded. -/
def expandBrands (brand : Option String) : List String :=
  match brand with
  | none => []
  | some b =>
    if b.data = [] then []
    else (((splitOnSlash b.data).map trimChars).filter (fun g => g ≠ [])).map String.mk

/-- Model of `groupByBrand`: fold over the spools, appending each spool to the
bucket of each of its expanded brand aliases.  The JavaScript record is
modelled as its lookup function, with a missing key read as the empty list. -/
def groupByBrand (spools : List Spool) : String → List Spool :=
  spools.foldl
    (fun acc s =>
      (expandBrands s.brand).foldl
        (fun acc2 key => fun k => if k = key then acc2 k ++ [s] else acc2 k) acc)
    (fun _ => [])

/-- The mapping described by the specification's words for `groupByBrand`: each
alias maps to the ordered list of input specs having that alias. -/
def groupByBrandSpec (spools : List Spool) (key : String) : List Spool :=
  spools.filter (fun s => decide (key ∈ expandBrands s.brand))

/-- One step of the subsequence scan inside `fuzzyBrandFilter`: advance the
needle index when the current haystack character equals the next needle
character. -/
def subseqStep (needle : List Char) (i : Nat) (c : Char) : Nat :=
  if i < needle.length ∧ needle[i]? = some c then i + 1 else i

/-- The `isSubsequence` scan of `fuzzyBrandFilter`: greedily consume the needle
while walking the haystack once; the needle is accepted when its index reaches
the end. -/
def isSubsequence (needle haystack : List Char) : Bool :=
  decide (haystack.foldl (subseqStep needle) 0 = needle.length)

/-- Character-list model of `String.prototype.includes`. -/
def containsSub (needle haystack : List Char) : Bool :=
  haystack.tails.any (fun t => needle.isPrefixOf t)

/-- Model of `fuzzyBrandFilter`: an empty (after trimming) query returns the
input unchanged; otherwise keep the spools one of whose lower-cased aliases
contains the lower-cased query as a substring or as a subsequence.  A spool
without aliases is dropped (`some` over the empty list). -/
def fuzzyBrandFilter (spools : List Spool) (query : String) : List Spool :=
  let q := jsToLower (jsTrim query)
  if q.data = [] then spools
  else
    spools.filter fun s =>
      (expandBrands s.brand).any fun brand =>
        let b := jsToLower brand
        if b.data = [] then false
        else containsSub q.data b.data || isSubsequence q.data b.data

/-- The fixed cardboard-core constant (`CARDBOARD_CORE_WEIGHT_GRAMS`). -/
def CARDBOARD_CORE_WEIGHT_GRAMS : ℚ := 40

/-- Exact rational value of the IEEE double `Math.PI`. -/
def jsMathPi : ℚ := 884279719003555 / 281474976710656

/-- Model of `estimateLengthMeters`: `null` when the weight is zero or the
diameter is absent or zero; otherwise the fixed-density cylinder model with
density 1.24 g/cm³. -/
def estimateLengthMeters (weightGrams : ℚ) (diameterMm : Option ℚ) : Option ℚ :=
  match diameterMm with
  | none => none
  | some d =>
    if weightGrams = 0 ∨ d = 0 then none
    else
      let density : ℚ := 1.24
      let radiusCm := d / 10 / 2
      let crossSectionArea := jsMathPi * radiusCm * radiusCm
      let volumeCm3 := weightGrams / density
      let lengthCm := volumeCm3 / crossSectionArea
      some (lengthCm / 100)

/-- Nominal filament mass used by the estimator: the parsed spool-size override
when it is a number greater than zero (an empty selection reads as `"0"`),
otherwise the spec's nominal filament weight, defaulting to 0. -/
def nominalFilamentOf (spool : Spool) (spoolSize : String) : ℚ :=
  match parseFloat (if spoolSize = "" then "0" else spoolSize) with
  | some v => if 0 < v then v else spool.filamentWeightGrams.getD 0
  | none => spool.filamentWeightGrams.getD 0

/-- Effective empty-spool weight used by the estimator: the spec's empty weight
(default 0) plus the cardboard-core constant exactly when the spool is
refillable and the include-core flag is set. -/
def effectiveEmptyOf (spool : Spool) (includeCore : Bool) : ℚ :=
  spool.emptySpoolWeightGrams.getD 0 +
    (if spool.refillable.getD false ∧ includeCore then CARDBOARD_CORE_WEIGHT_GRAMS else 0)

/-- The four estimator outputs of the calculator `useMemo`. -/
structure EstimationResult where
  remainingWeight : Option ℚ
  remainingLength : Option ℚ
  remainingPercent : Option ℚ
  safeWeight : Option ℚ
deriving DecidableEq

/-- Model of the estimator `useMemo` in `App`: all outputs are `null` when no
spool is selected or the measured-weight text does not parse to a number
strictly greater than zero; otherwise the remaining weight is clamped to
`[0, nominal]`, the length comes from the cylinder model, the percentage is
relative to the nominal mass (when positive) and the safe weight is 90 % of
the remaining weight. -/
def estimate (currentSpool : Option Spool) (measuredWeight spoolSize : String)
    (includeCore : Bool) : EstimationResult :=
  match currentSpool with
  | none => ⟨none, none, none, none⟩
  | some spool =>
    match parseFloat measuredWeight with
    | none => ⟨none, none, none, none⟩
    | some measured =>
      if measured ≤ 0 then ⟨none, none, none, none⟩
      else
        let nominalFilament := nominalFilamentOf spool spoolSize
        let remaining := max 0 (measured - effectiveEmptyOf spool includeCore)
        let clamped := if 0 < nominalFilament then min remaining nominalFilament else remaining
        ⟨some clamped,
         estimateLengthMeters clamped spool.filamentDiameterMm,
         if 0 < nominalFilament then some (clamped / nominalFilament * 100) else none,
         some (clamped * (9 / 10))⟩


/-- The spool of Scenario A/C/D of the specification: empty weight 250 g, nominal
1000 g, diameter 1.75 mm, not refillable. -/
def specA : Spool :=
  ⟨some "ESUN", "plastic", none, none, some 1.75, some 1000, some 250, none, some false⟩

/-- The spool of Scenario B: as `specA` but refillable. -/
def specB : Spool :=
  ⟨some "ESUN", "plastic", none, none, some 1.75, some 1000, some 250, none, some true⟩

/-- A single-alias spool used to exercise the fuzzy brand filter. -/
def esunSpool : Spool := ⟨some "ESUN", "plastic", none, none, none, none, none, none, some false⟩

/-- The Scenario E spool whose brand field carries two aliases. -/
def esunGenericSpool : Spool :=
  ⟨some "ESUN/Generic", "cardboard 54mm", none, none, none, none, none, none, none⟩

/-- A degenerate spool whose brand expands to the same alias twice. -/
def dupAliasSpool : Spool := ⟨some "A/A", "t", none, none, none, none, none, none, none⟩

/-- A refillable spool used to exercise the include-core state machine. -/
def coreSpool : Spool := ⟨some "Bambu", "petg hf", none, none, none, none, none, none, some true⟩

/-- The calculator state watched by the include-core reset effect. -/
structure CalcState where
  currentSpool : Option Spool
  includeCore : Bool
deriving DecidableEq

/-- Truthiness of `currentSpool?.refillable`. -/
def spoolRefillable (s : Option Spool) : Bool :=
  match s with
  | none => false
  | some sp => sp.refillable.getD false

/-- The `useEffect` that runs after every update of its dependencies: reset
`includeCore` when the current spool is absent or not refillable. -/
def settleIncludeCore (st : CalcState) : CalcState :=
  if ¬ spoolRefillable st.currentSpool ∧ st.includeCore
  then { st with includeCore := false } else st

/-- User events that change the state watched by the effect: selecting a spool
(or clearing the selection) and toggling the include-core checkbox. -/
inductive CalcEvent where
  | selectSpool (sp : Option Spool)
  | setIncludeCore (b : Bool)

/-- One settled UI transition: apply the event, then let the reset effect run. -/
def calcStep (st : CalcState) (e : CalcEvent) : CalcState :=
  settleIncludeCore <|
    match e with
    | .selectSpool sp => { st with currentSpool := sp }
    | .setIncludeCore b => { st with includeCore := b }

/-- Initial calculator state: no spool selected, core not included. -/
def calcInit : CalcState := ⟨none, false⟩

/-- Calculator states reachable from the initial state by settled transitions. -/
inductive CalcReachable : CalcState → Prop where
  | init : CalcReachable calcInit
  | step {st : CalcState} (e : CalcEvent) : CalcReachable st → CalcReachable (calcStep st e)

/-- Auxiliary: the greedy scan of `isSubsequence`, started at needle index `i`,
accepts exactly when the yet-unmatched part of the needle is a sublist of the
haystack. -/
theorem foldl_subseqStep_eq (needle : List Char) :
    ∀ (haystack : List Char) (i : Nat), i ≤ needle.length →
      (List.foldl (subseqStep needle) i haystack = needle.length ↔ needle.drop i <+ haystack)
  | [], i, hi => by
    simp only [List.foldl_nil]
    constructor
    · intro h
      have : needle.drop i = [] := List.drop_eq_nil_iff.mpr (le_of_eq h.symm)
      simp [this]
    · intro h
      have := List.drop_eq_nil_iff.mp (List.sublist_nil.mp h)
      omega
  | c :: hs, i, hi => by
    by_cases hc : i < needle.length ∧ needle[i]? = some c
    · have hstep : subseqStep needle i c = i + 1 := by rw [subseqStep, if_pos hc]
      rw [List.foldl_cons, hstep, foldl_subseqStep_eq needle hs (i + 1) hc.1]
      have hget : needle[i] = c := by
        have h2 := hc.2
        rw [List.getElem?_eq_some] at h2
        exact h2.2
      rw [List.drop_eq_getElem_cons hc.1, hget]
      exact (List.cons_sublist_cons).symm
    · have hstep : subseqStep needle i c = i := by rw [subseqStep, if_neg hc]
      rw [List.foldl_cons, hstep, foldl_subseqStep_eq needle hs i hi]
      by_cases hlen : i < needle.length
      · have hne : needle[i] ≠ c := by
          intro he
          exact hc ⟨hlen, by rw [List.getElem?_eq_getElem hlen, he]⟩
        rw [List.drop_eq_getElem_cons hlen]
        constructor
        · intro h
          exact h.cons c
        · intro h
          cases h with
          | cons _ h => exact h
          | cons₂ => exact absurd rfl hne
      · have hd : needle.drop i = [] := List.drop_eq_nil_iff.mpr (by omega)
        simp [hd]

/-- The scan `isSubsequence` decides the subsequence (sublist) relation. -/
theorem isSubsequence_iff (needle haystack : List Char) :
    isSubsequence needle haystack = true ↔ needle <+ haystack := by
  rw [isSubsequence, decide_eq_true_iff]
  simpa using foldl_subseqStep_eq needle haystack 0 (Nat.zero_le _)

/-- `containsSub` decides the substring (infix) relation. -/
theorem containsSub_iff (needle haystack : List Char) :
    containsSub needle haystack = true ↔ needle <:+: haystack := by
  rw [containsSub, List.any_eq_true, List.infix_iff_prefix_suffix]
  constructor
  · rintro ⟨t, ht, hp⟩
    exact ⟨t, List.isPrefixOf_iff_prefix.mp hp, (List.mem_tails _ _).mp ht⟩
  · rintro ⟨t, hp, hs⟩
    exact ⟨t, (List.mem_tails _ _).mpr hs, List.isPrefixOf_iff_prefix.mpr hp⟩

/-- A `String.mk` is the empty string exactly when its character list is empty. -/
theorem mk_eq_empty_iff (l : List Char) : String.mk l = "" ↔ l = [] := by
  rw [show ("" : String) = String.mk [] from rfl]
  exact ⟨fun h => by injection h, fun h => by rw [h]⟩

/-- `parseFloat` on a plain digit string whose representation was computed. -/
theorem parseFloat_nat (s : String) (n : Nat)
    (h : parseFloatRepr s = some (false, n, 0, 0)) : parseFloat s = some n := by
  rw [parseFloat, h]
  norm_num [reprToRat]

theorem parseFloat_800 : parseFloat "800" = some 800 := parseFloat_nat _ _ (by decide)

theorem parseFloat_300 : parseFloat "300" = some 300 := parseFloat_nat _ _ (by decide)

theorem parseFloat_250 : parseFloat "250" = some 250 := parseFloat_nat _ _ (by decide)

theorem parseFloat_0 : parseFloat "0" = some 0 := by
  have h := parseFloat_nat "0" 0 (by decide)
  simpa using h

theorem parseFloat_abc : parseFloat "abc" = none := by
  rw [parseFloat, show parseFloatRepr "abc" = none from by decide]
  rfl

theorem parseFloat_neg5 : parseFloat "-5" = some (-5) := by
  rw [parseFloat, show parseFloatRepr "-5" = some (true, 5, 0, 0) from by decide]
  norm_num [reprToRat]

/-- Auxiliary: a fold of the brand-bucket update over one spool's aliases, read
at key `k`, appends one copy of the spool per occurrence of `k` among the
aliases. -/
theorem groupBrandsAux (s : Spool) (k : String) :
    ∀ (brands : List String) (acc : String → List Spool),
      (brands.foldl (fun acc2 key => fun k2 => if k2 = key then acc2 k2 ++ [s] else acc2 k2) acc) k
        = acc k ++ List.replicate (brands.count k) s
  | [], acc => by simp
  | b :: bs, acc => by
    rw [List.foldl_cons, groupBrandsAux s k bs, List.count_cons]
    by_cases hbk : k = b
    · subst hbk
      simp [List.replicate_succ]
    · have hbeq : (b == k) = false := by simp [Ne.symm hbk]
      simp [hbk, hbeq]

/-- Auxiliary: the `groupByBrand` fold, read at key `k`, in closed form. -/
theorem groupByBrand_foldl (k : String) :
    ∀ (spools : List Spool) (acc : String → List Spool),
      (spools.foldl
        (fun acc s =>
          (expandBrands s.brand).foldl
            (fun acc2 key => fun k2 => if k2 = key then acc2 k2 ++ [s] else acc2 k2) acc)
        acc) k
      = acc k ++ spools.flatMap (fun s => List.replicate ((expandBrands s.brand).count k) s)
  | [], acc => by simp
  | s :: ss, acc => by
    rw [List.foldl_cons, groupByBrand_foldl k ss, groupBrandsAux s k, List.flatMap_cons,
      List.append_assoc]

/-- `groupByBrand` at a key: one copy of each spool per occurrence of the key
among its expanded aliases, in input order. -/
theorem groupByBrand_eq_flatMap (spools : List Spool) (k : String) :
    groupByBrand spools k
      = spools.flatMap (fun s => List.replicate ((expandBrands s.brand).count k) s) := by
  rw [groupByBrand, groupByBrand_foldl k spools]
  rfl

/-- When no spool repeats an alias, the closed form of `groupByBrand` is the
filter described by the specification. -/
theorem flatMap_replicate_eq_filter (k : String) :
    ∀ (spools : List Spool), (∀ s ∈ spools, (expandBrands s.brand).Nodup) →
      spools.flatMap (fun s => List.replicate ((expandBrands s.brand).count k) s)
        = groupByBrandSpec spools k
  | [], _ => by simp [groupByBrandSpec]
  | s :: ss, h => by
    rw [List.flatMap_cons, groupByBrandSpec, List.filter_cons]
    have hrest := flatMap_replicate_eq_filter k ss (fun t ht => h t (List.mem_cons_of_mem s ht))
    rw [groupByBrandSpec] at hrest
    by_cases hk : k ∈ expandBrands s.brand
    · have h1 : (expandBrands s.brand).count k = 1 :=
        List.count_eq_one_of_mem (h s (List.mem_cons_self s ss)) hk
      simp [h1, hk, hrest, List.replicate_succ]
    · have h0 : (expandBrands s.brand).count k = 0 := List.count_eq_zero_of_not_mem hk
      simp [h0, hk, hrest]

/-- Auxiliary: the `loadSpools` fold in closed form over any file list. -/
theorem loadSpools_foldl (baseUrl : String) (outcomeOf : String → FetchOutcome) :
    ∀ (files : List String) (acc : List Spool),
      (files.foldl
        (fun results file =>
          match outcomeOf file with
          | .success spool => results ++ [{ spool with image := withBaseUrl baseUrl spool.image }]
          | _ => results)
        acc)
      = acc ++ files.filterMap (fun file =>
          match outcomeOf file with
          | .success spool => some { spool with image := withBaseUrl baseUrl spool.image }
          | _ => none)
  | [], acc => by simp
  | f :: fs, acc => by
    rw [List.foldl_cons, loadSpools_foldl baseUrl outcomeOf fs, List.filterMap_cons]
    cases houtcome : outcomeOf f <;> simp

/-- Auxiliary: after the reset effect has run, the include-core flag can only
be set when the current spool is refillable. -/
theorem settle_invariant (st : CalcState) (h : (settleIncludeCore st).includeCore = true) :
    spoolRefillable (settleIncludeCore st).currentSpool = true := by
  rw [settleIncludeCore] at h ⊢
  by_cases hc : ¬ spoolRefillable st.currentSpool ∧ st.includeCore
  · rw [if_pos hc] at h ⊢
    cases h
  · rw [if_neg hc] at h ⊢
    rw [not_and] at hc
    by_cases hr : spoolRefillable st.currentSpool
    · exact hr
    · exact absurd h (by simpa using hc hr)

/-- Claim C1, counterexample: for the Scenario A spool (empty 250 g, nominal
1000 g, diameter 1.75 mm, not refillable), measured weight 800 and no nominal
override in effect, the estimator returns remaining weight 550 g, 55 % and
safe weight 495 g as claimed, but the remaining length is not close to
146.9 m: it exceeds 147.9 m (it is in fact about 184.4 m). -/
theorem scenarioA_length_counterexample :
    (estimate (some specA) "800" "0" false).remainingWeight = some 550 ∧
    (estimate (some specA) "800" "0" false).remainingPercent = some 55 ∧
    (estimate (some specA) "800" "0" false).safeWeight = some 495 ∧
    (estimate (some specA) "800" "0" false).remainingLength.isSome = true ∧
    1469 / 10 + 1 < ((estimate (some specA) "800" "0" false).remainingLength.getD 0 : ℚ) := by
  refine ⟨?_, ?_, ?_, ?_, ?_⟩ <;>
    norm_num [estimate, parseFloat_800, parseFloat_0, nominalFilamentOf, effectiveEmptyOf,
      specA, max_def, min_def, CARDBOARD_CORE_WEIGHT_GRAMS, estimateLengthMeters, jsMathPi]

/-- Claim C1 (amended): for the Scenario A spool, measured weight 800 and no
nominal override in effect, the estimator returns remaining weight 550 g,
55 %, safe weight 495 g, and a remaining length of about 184.4 m (within
0.1 m), computed by the fixed-density cylindrical-volume model with density
1.24 g/cm³. -/
theorem scenarioA_estimate :
    (estimate (some specA) "800" "0" false).remainingWeight = some 550 ∧
    (estimate (some specA) "800" "0" false).remainingPercent = some 55 ∧
    (estimate (some specA) "800" "0" false).safeWeight = some 495 ∧
    (estimate (some specA) "800" "0" false).remainingLength.isSome = true ∧
    1844 / 10 - 1 / 10 < ((estimate (some specA) "800" "0" false).remainingLength.getD 0 : ℚ) ∧
    ((estimate (some specA) "800" "0" false).remainingLength.getD 0 : ℚ) < 1844 / 10 + 1 / 10 := by
  refine ⟨?_, ?_, ?_, ?_, ?_, ?_⟩ <;>
    norm_num [estimate, parseFloat_800, parseFloat_0, nominalFilamentOf, effectiveEmptyOf,
      specA, max_def, min_def, CARDBOARD_CORE_WEIGHT_GRAMS, estimateLengthMeters, jsMathPi]

/-- Claim C2: the estimator is a total function (it cannot raise), and it
returns all four outputs as `none` together whenever the spool spec is absent
or the measured-weight text does not parse to a number strictly greater than
zero. -/
theorem estimate_null_on_invalid_input (sp : Option Spool) (text size : String) (core : Bool)
    (h : sp = none ∨ ∀ v : ℚ, parseFloat text = some v → v ≤ 0) :
    estimate sp text size core = ⟨none, none, none, none⟩ := by
  rcases h with h | h
  · rw [h, estimate]
  · cases sp with
    | none => rw [estimate]
    | some spool =>
      rw [estimate]
      cases hp : parseFloat text with
      | none => rfl
      | some v =>
        have hv : v ≤ 0 := h v hp
        simp [hv]

/-- Witness for C2: the measured-weight texts `"abc"` (not a number) and
`"-5"` (not strictly positive) both give all-null outputs. -/
theorem estimate_null_on_invalid_input_witness :
    estimate (some specA) "abc" "1000" false = ⟨none, none, none, none⟩ ∧
    estimate (some specA) "-5" "1000" false = ⟨none, none, none, none⟩ :=
  ⟨estimate_null_on_invalid_input (some specA) "abc" "1000" false
      (Or.inr fun v hv => by rw [parseFloat_abc] at hv; cases hv),
   estimate_null_on_invalid_input (some specA) "-5" "1000" false
      (Or.inr fun v hv => by
        rw [parseFloat_neg5, Option.some.injEq] at hv
        rw [← hv]
        norm_num)⟩

/-- Claim C3: whenever the estimator output is non-null, the remaining weight
is nonnegative, and it does not exceed the effective nominal filament mass
when that mass is positive. -/
theorem remainingWeight_bounds (spool : Spool) (text size : String) (core : Bool) (w : ℚ)
    (h : (estimate (some spool) text size core).remainingWeight = some w) :
    0 ≤ w ∧ (0 < nominalFilamentOf spool size → w ≤ nominalFilamentOf spool size) := by
  rw [estimate] at h
  cases hp : parseFloat text with
  | none => rw [hp] at h; cases h
  | some v =>
    rw [hp] at h
    dsimp only at h
    by_cases hv : v ≤ 0
    · rw [if_pos hv] at h; cases h
    · rw [if_neg hv] at h
      dsimp only at h
      rw [Option.some.injEq] at h
      by_cases hn : 0 < nominalFilamentOf spool size
      · rw [if_pos hn] at h
        subst h
        exact ⟨le_min (le_max_left 0 _) hn.le, fun _ => min_le_right _ _⟩
      · rw [if_neg hn] at h
        subst h
        exact ⟨le_max_left 0 _, fun hn2 => absurd hn2 hn⟩

/-- Witness for C3, Scenario D: override 250 g, spec nominal 1000 g, measured
300, empty 250 gives remaining weight min(50, 250) = 50 g, which satisfies the
bounds. -/
theorem remainingWeight_bounds_witness :
    (estimate (some specA) "300" "250" false).remainingWeight = some 50 ∧
    (0 ≤ (50 : ℚ) ∧
      (0 < nominalFilamentOf specA "250" → (50 : ℚ) ≤ nominalFilamentOf specA "250")) := by
  have hn : nominalFilamentOf specA "250" = 250 := by
    rw [nominalFilamentOf, if_neg (by decide), parseFloat_250]
    norm_num
  have hee : effectiveEmptyOf specA false = 250 := by
    norm_num [effectiveEmptyOf, specA, CARDBOARD_CORE_WEIGHT_GRAMS]
  have heval : (estimate (some specA) "300" "250" false).remainingWeight = some 50 := by
    norm_num [estimate, parseFloat_300, hn, hee, max_def, min_def]
  exact ⟨heval, remainingWeight_bounds specA "300" "250" false 50 heval⟩

/-- Claim C4: for every refillable spool with the include-core flag set, the
effective empty-spool weight used by the estimator is the base empty weight
(0 if absent) plus exactly 40 grams. -/
theorem effectiveEmpty_refillable_core (spool : Spool) (h : spool.refillable = some true) :
    effectiveEmptyOf spool true = spool.emptySpoolWeightGrams.getD 0 + 40 := by
  rw [effectiveEmptyOf, h]
  norm_num [CARDBOARD_CORE_WEIGHT_GRAMS]

/-- Witness for C4, Scenario B: base empty weight 250 gives effective empty
weight 290, and with measured weight 800 the estimator returns remaining
weight 510 g and safe weight 459 g. -/
theorem effectiveEmpty_refillable_core_witness :
    effectiveEmptyOf specB true = specB.emptySpoolWeightGrams.getD 0 + 40 ∧
    effectiveEmptyOf specB true = 290 ∧
    (estimate (some specB) "800" "0" true).remainingWeight = some 510 ∧
    (estimate (some specB) "800" "0" true).safeWeight = some 459 := by
  refine ⟨effectiveEmpty_refillable_core specB rfl, ?_, ?_, ?_⟩ <;>
    norm_num [estimate, parseFloat_800, parseFloat_0, nominalFilamentOf, effectiveEmptyOf,
      specB, max_def, min_def, CARDBOARD_CORE_WEIGHT_GRAMS]

/-- Claim C5: for every spool whose refillable flag is false or absent, the
estimator output is identical whether the include-core flag is true or false
(two-run noninterference in the include-core input). -/
theorem includeCore_noninterference (spool : Spool) (text size : String)
    (h : spool.refillable = some false ∨ spool.refillable = none) :
    estimate (some spool) text size true = estimate (some spool) text size false := by
  have he : effectiveEmptyOf spool true = effectiveEmptyOf spool false := by
    rcases h with h | h <;> simp [effectiveEmptyOf, h]
  rw [estimate, estimate]
  cases parseFloat text with
  | none => rfl
  | some v =>
    dsimp only
    by_cases hv : v ≤ 0
    · rw [if_pos hv, if_pos hv]
    · rw [if_neg hv, if_neg hv, he]

/-- Witness for C5: on the non-refillable Scenario A spool the two runs agree. -/
theorem includeCore_noninterference_witness :
    estimate (some specA) "800" "1000" true = estimate (some specA) "800" "1000" false :=
  includeCore_noninterference specA "800" "1000" (Or.inl rfl)

/-- Claim C6: the fuzzy brand filter returns the input unchanged on an empty
or whitespace-only query; on a non-empty query (trimmed and lower-cased) a
spool is kept exactly when the query is a substring or a subsequence of one of
its lower-cased expanded brand aliases (so a spool with no aliases never
matches). -/
theorem fuzzyBrandFilter_spec (spools : List Spool) (query : String) :
    (jsTrim query = "" → fuzzyBrandFilter spools query = spools) ∧
    (jsTrim query ≠ "" → ∀ s : Spool,
      s ∈ fuzzyBrandFilter spools query ↔
        s ∈ spools ∧ ∃ brand ∈ expandBrands s.brand,
          (jsToLower (jsTrim query)).data <:+: (jsToLower brand).data ∨
          (jsToLower (jsTrim query)).data <+ (jsToLower brand).data) := by
  constructor
  · intro h
    rw [fuzzyBrandFilter, h]
    rfl
  · intro h s
    have hq : (jsToLower (jsTrim query)).data ≠ [] := by
      show (jsTrim query).data.map Char.toLower ≠ []
      intro hmap
      apply h
      rw [jsTrim, mk_eq_empty_iff]
      cases hl : trimChars query.data with
      | nil => rfl
      | cons a l =>
        rw [show (jsTrim query).data = trimChars query.data from rfl, hl] at hmap
        simp at hmap
    rw [fuzzyBrandFilter]
    rw [if_neg hq]
    rw [List.mem_filter]
    constructor
    · rintro ⟨hs, hp⟩
      refine ⟨hs, ?_⟩
      rw [List.any_eq_true] at hp
      obtain ⟨brand, hb, hmatch⟩ := hp
      refine ⟨brand, hb, ?_⟩
      by_cases hbd : (jsToLower brand).data = []
      · rw [if_pos hbd] at hmatch; cases hmatch
      · rw [if_neg hbd, Bool.or_eq_true, containsSub_iff, isSubsequence_iff] at hmatch
        exact hmatch
    · rintro ⟨hs, brand, hb, hmatch⟩
      refine ⟨hs, ?_⟩
      rw [List.any_eq_true]
      refine ⟨brand, hb, ?_⟩
      have hbd : (jsToLower brand).data ≠ [] := by
        intro hnil
        rw [hnil] at hmatch
        rcases hmatch with hm | hm
        · exact hq (List.sublist_nil.mp hm.sublist)
        · exact hq (List.sublist_nil.mp hm)
      rw [if_neg hbd, Bool.or_eq_true, containsSub_iff, isSubsequence_iff]
      exact hmatch

/-- Witness for C6, Scenario F: the query `"esn"` keeps the brand `"ESUN"`
via the subsequence match. -/
theorem fuzzyBrandFilter_spec_witness :
    jsTrim "esn" ≠ "" ∧ esunSpool ∈ fuzzyBrandFilter [esunSpool] "esn" := by
  have hne : jsTrim "esn" ≠ "" := by decide
  exact ⟨hne, ((fuzzyBrandFilter_spec [esunSpool] "esn").2 hne esunSpool).mpr (by decide)⟩

/-- Claim C7: in every reachable settled state of the calculator, the
include-core flag is true only when a spool is selected and it is refillable;
stale core inclusion never applies to a spool that does not support it. -/
theorem includeCore_only_when_refillable (st : CalcState) (hr : CalcReachable st)
    (h : st.includeCore = true) :
    ∃ sp : Spool, st.currentSpool = some sp ∧ sp.refillable.getD false = true := by
  have hinv : spoolRefillable st.currentSpool = true := by
    cases hr with
    | init => cases h
    | step e hprev => exact settle_invariant _ h
  cases hcs : st.currentSpool with
  | none => rw [hcs] at hinv; cases hinv
  | some sp =>
    rw [hcs] at hinv
    exact ⟨sp, rfl, hinv⟩

/-- Witness for C7: selecting a refillable spool and then checking the box
reaches a state with the flag set, and there the selected spool is refillable. -/
theorem includeCore_only_when_refillable_witness :
    ∃ sp : Spool,
      (calcStep (calcStep calcInit (.selectSpool (some coreSpool)))
        (.setIncludeCore true)).currentSpool = some sp ∧
      sp.refillable.getD false = true :=
  includeCore_only_when_refillable _
    (CalcReachable.step _ (CalcReachable.step _ CalcReachable.init)) (by decide)

/-- Claim C8, counterexample: on a spool whose brand `"A/A"` expands to the
alias `"A"` twice, `groupByBrand` appends the spool twice under `"A"`, so its
bucket is not the ordered list of input specs having that alias. -/
theorem groupByBrand_dup_alias_counterexample :
    groupByBrand [dupAliasSpool] "A" ≠ groupByBrandSpec [dupAliasSpool] "A" ∧
    groupByBrand [dupAliasSpool] "A" = [dupAliasSpool, dupAliasSpool] ∧
    groupByBrandSpec [dupAliasSpool] "A" = [dupAliasSpool] := by decide

/-- Claim C8 (amended): `groupByBrand` maps each key to one copy of each spool
per occurrence of the key among its expanded aliases, in input order; when no
spool repeats an alias (the intended case, e.g. `"ESUN/Generic"`), this is
exactly the ordered list of specs having that alias. -/
theorem groupByBrand_characterization (spools : List Spool) (key : String) :
    groupByBrand spools key
      = spools.flatMap (fun s => List.replicate ((expandBrands s.brand).count key) s) ∧
    ((∀ s ∈ spools, (expandBrands s.brand).Nodup) →
      groupByBrand spools key = groupByBrandSpec spools key) := by
  refine ⟨groupByBrand_eq_flatMap spools key, fun h => ?_⟩
  rw [groupByBrand_eq_flatMap spools key, flatMap_replicate_eq_filter key spools h]

/-- Witness for C8, Scenario E: the spool with brand `"ESUN/Generic"` appears,
as the same spec, under both the `"ESUN"` and the `"Generic"` key. -/
theorem groupByBrand_characterization_witness :
    groupByBrand [esunGenericSpool] "ESUN" = groupByBrandSpec [esunGenericSpool] "ESUN" ∧
    groupByBrand [esunGenericSpool] "ESUN" = [esunGenericSpool] ∧
    groupByBrand [esunGenericSpool] "Generic" = [esunGenericSpool] :=
  ⟨(groupByBrand_characterization [esunGenericSpool] "ESUN").2 (by decide),
   by decide, by decide⟩

/-- Claim C9: the catalog load is a total function of the per-source outcomes;
each failing source is skipped without affecting the others, and the catalog
is exactly the (image-normalised) spools of the successful sources in the
enumeration order of `SPOOL_FILES`. -/
theorem loadSpools_spec (baseUrl : String) (outcomeOf : String → FetchOutcome) :
    loadSpools baseUrl outcomeOf =
      SPOOL_FILES.filterMap (fun file =>
        match outcomeOf file with
        | .success spool => some { spool with image := withBaseUrl baseUrl spool.image }
        | _ => none) := by
  rw [loadSpools, loadSpools_foldl]
  rfl

/-- Claim C10: the fuzzy brand filter returns a sublist of its input (so every
returned spec is an input element, with no higher multiplicity, in input
order), and it is idempotent for a fixed query. -/
theorem fuzzyBrandFilter_sublist_idempotent (spools : List Spool) (query : String) :
    fuzzyBrandFilter spools query <+ spools ∧
    (∀ s : Spool, (fuzzyBrandFilter spools query).count s ≤ spools.count s) ∧
    fuzzyBrandFilter (fuzzyBrandFilter spools query) query = fuzzyBrandFilter spools query := by
  have hsub : fuzzyBrandFilter spools query <+ spools := by
    rw [fuzzyBrandFilter]
    by_cases h : (jsToLower (jsTrim query)).data = []
    · rw [if_pos h]
    · rw [if_neg h]
      exact List.filter_sublist _
  refine ⟨hsub, fun s => hsub.count_le s, ?_⟩
  simp only [fuzzyBrandFilter]
  by_cases h : (jsToLower (jsTrim query)).data = []
  · rw [if_pos h, if_pos h]
  · rw [if_neg h, if_neg h, List.filter_filter]
    simp only [Bool.and_self]

end Spoology
